import Mathlib

/-!
Verification of the overlord cache-proxy core against its specification.

The Go sources are shallowly embedded: byte streams become `List Char`,
Go slices become `List`, atomics become plain fields of a functional
state record, channels become a pending-signal counter, and fallible
reads return `Except`.  Each definition mirrors one Go function of the
repository (file and function named in its doc comment).
-/

namespace Overlord

/-! ## proto/batch.go — MsgBatch

`MsgBatch` fields (`buf`, `msgs`, `count`, `dc`, `state`, `parent`)
become a record.  Message pointers are modelled as `Nat` identifiers;
`nil` results become `Option.none`.  The `parent` pointer refers into a
heap (`List MsgBatch`) by index, and the shared done channel `dc` is a
pending-signal count kept beside the heap.
-/

/-- One `*Message` pointer, modelled as an identifier. -/
abbrev Msg := Nat

/-- `proto.MsgBatch` (batch.go).  `state` is `true` for
`msgBatchStateDone` and `false` for `msgBatchStateNotReady`. -/
structure MsgBatch where
  buf    : List Char
  msgs   : List Msg
  count  : Nat
  /-- the shared done channel `dc`, as an identifier -/
  dc     : Nat
  state  : Bool
  parent : Option Nat
  deriving Repr, DecidableEq

namespace MsgBatch

/-- `MsgBatch.AddMsg` (batch.go): append when the slice is full,
otherwise overwrite the slot at `count`; then increment `count`. -/
def AddMsg (m : MsgBatch) (msg : Msg) : MsgBatch :=
  if m.msgs.length ≤ m.count then
    { m with msgs := m.msgs ++ [msg], count := m.count + 1 }
  else
    { m with msgs := m.msgs.set m.count msg, count := m.count + 1 }

/-- `MsgBatch.Count` (batch.go). -/
def Count (m : MsgBatch) : Nat := m.count

/-- `MsgBatch.Nth` (batch.go): the message at position `i` when
`i < count`, `nil` otherwise.  The in-range slice access `m.msgs[i]`
is `m.msgs[i]?`; the well-formedness invariant `count ≤ msgs.length`
makes it defined. -/
def Nth (m : MsgBatch) (i : Nat) : Option Msg :=
  if i < m.count then m.msgs[i]? else none

/-- `MsgBatch.Buffer` (batch.go). -/
def Buffer (m : MsgBatch) : List Char := m.buf

/-- `MsgBatch.Reset` (batch.go): clear state, count, buffer and parent;
`msgs` (and the done channel) are kept. -/
def Reset (m : MsgBatch) : MsgBatch :=
  { m with state := false, count := 0, buf := [], parent := none }

/-- `MsgBatch.Msgs` (batch.go): `m.msgs[:m.count]`. -/
def Msgs (m : MsgBatch) : List Msg := m.msgs.take m.count

/-- `MsgBatch.IsDone` (batch.go). -/
def IsDone (m : MsgBatch) : Bool := m.state

/-- The slice invariant maintained by `AddMsg`: `count` never exceeds
the slice length. -/
def WF (m : MsgBatch) : Prop := m.count ≤ m.msgs.length

end MsgBatch

/-! ### Done / Fork over a heap of batches

`Done` and `Fork` walk mutable `parent` pointers, so they are embedded
over an explicit heap: a list of `MsgBatch` records addressed by index,
together with the contents of the shared done channel.  The channel is
a pending-signal count; its capacity is 1 (the spec's "depth-1 signal"
— the `make(chan struct{}, 1)` site is outside the included sources).
-/

/-- A heap of batches plus the shared done channel's pending count. -/
structure BatchSys where
  heap : List MsgBatch
  chan : Nat
  deriving Repr, DecidableEq

/-- The `select { case dc <- struct{}{}: default: }` non-blocking send:
a signal is enqueued when the depth-1 channel is empty and dropped
otherwise. -/
def chanSend (c : Nat) : Nat := if c < 1 then c + 1 else c

/-- The root-finding loop shared by `MsgBatch.Done` and `MsgBatch.Fork`
(batch.go): follow `parent` until it is `nil`.  The Go loop is
unbounded; here it carries fuel, which the callers set to the heap
size (enough for any acyclic parent chain). -/
def rootOf (heap : List MsgBatch) : Nat → Nat → Nat
  | 0, i => i
  | fuel + 1, i =>
    match heap[i]? >>= MsgBatch.parent with
    | none => i
    | some p => rootOf heap fuel p

/-- `MsgBatch.Done` (batch.go): walk to the root of the parent chain,
store the done state there, then try a non-blocking send on the shared
channel. -/
def BatchSys.Done (s : BatchSys) (i : Nat) : BatchSys :=
  let r := rootOf s.heap s.heap.length i
  { heap :=
      match s.heap[r]? with
      | none => s.heap
      | some b => s.heap.set r { b with state := true }
    chan := chanSend s.chan }

/-- `MsgBatch.Fork` (batch.go): allocate a batch (fresh from the pool)
sharing `dc` with batch `i`, whose parent is set directly to the root
of `i`'s parent chain. -/
def BatchSys.Fork (s : BatchSys) (i : Nat) : BatchSys :=
  { s with
    heap := s.heap ++
      [{ buf := [], msgs := [], count := 0,
         dc := ((s.heap[i]?).map MsgBatch.dc).getD 0,
         state := false,
         parent := some (rootOf s.heap s.heap.length i) }] }

/-! ### MsgBatchAllocator.Wait

`Wait` races receives on the shared done channel against a
`time.After` timer, re-reading the sub-batches' done flags after each
ping.  The scheduler's choices are an explicit event trace: each event
is either a ping (carrying the sub-batch states observed right after
it) or the timer firing.  `none` models blocking forever on an
exhausted trace.
-/

/-- `maxRetryTimes` (batch.go). -/
def maxRetryTimes : Nat := 8

/-- What `checkAllDone` sees of one node sub-batch at a wakeup:
its `Count()` and `IsDone()` at that moment. -/
structure MBView where
  count : Nat
  done : Bool
  deriving Repr, DecidableEq

/-- `MsgBatchAllocator.checkAllDone` (batch.go): false iff some
sub-batch holding at least one message is not done. -/
def checkAllDone (mbs : List MBView) : Bool :=
  mbs.all fun mb => mb.count == 0 || mb.done

/-- One firing of the `select` inside `Wait`. -/
inductive WaitEvent where
  | wake (mbs : List MBView)
  | timeout
  deriving Repr, DecidableEq

/-- The three outcomes of `Wait`: `nil`, `ErrTimeout`,
`ErrMaxRetryReached`. -/
inductive WaitResult where
  | ok
  | timeout
  | maxRetry
  deriving Repr, DecidableEq

/-- The retry loop of `MsgBatchAllocator.Wait` (batch.go):
`for i := 0; i < mbLen+maxRetryTimes; i++ { select ... }` followed by
`return ErrMaxRetryReached`. -/
def waitLoop : Nat → List WaitEvent → Option WaitResult
  | 0, _ => some .maxRetry
  | _ + 1, [] => none
  | _ + 1, .timeout :: _ => some .timeout
  | n + 1, .wake mbs :: rest =>
    if checkAllDone mbs then some .ok else waitLoop n rest

/-- `MsgBatchAllocator.Wait` (batch.go).  `mbLen` is `len(m.mbMap)`. -/
def Wait (mbLen : Nat) (events : List WaitEvent) : Option WaitResult :=
  if mbLen = 0 then
    match events with
    | [] => none
    | .timeout :: _ => some .timeout
    | .wake mbs :: _ =>
      if checkAllDone mbs then some .ok else some .maxRetry
  else waitLoop (mbLen + maxRetryTimes) events

/-- A ping that finds the sub-batches not all done. -/
def isFailedWake : WaitEvent → Bool
  | .wake mbs => !checkAllDone mbs
  | .timeout => false

/-! ## proto/redis/request.go — command classification

The command tables are the source's concatenated length-prefixed
blobs; `IsSupport` probes them with `bytes.Contains`.  A parsed bulk's
`data` keeps its length prefix (e.g. `3\r\nGET`), which is exactly what
`IsSupport` reads from `resp.array[0].data`.
-/

/-- `bytes.Contains(hay, pat)`: substring search. -/
def bytesContains : List Char → List Char → Bool
  | [], pat => pat.isEmpty
  | c :: t, pat => pat.isPrefixOf (c :: t) || bytesContains t pat

/-- `reqReadCmdsBytes` (request.go). -/
def reqReadCmdsBytes : List Char :=
  ("4\r\nDUMP" ++ "6\r\nEXISTS" ++ "4\r\nPTTL" ++ "3\r\nTTL" ++
   "4\r\nTYPE" ++ "8\r\nBITCOUNT" ++ "6\r\nBITPOS" ++ "3\r\nGET" ++
   "6\r\nGETBIT" ++ "8\r\nGETRANGE" ++ "4\r\nMGET" ++ "6\r\nSTRLEN" ++
   "7\r\nHEXISTS" ++ "4\r\nHGET" ++ "7\r\nHGETALL" ++ "5\r\nHKEYS" ++
   "4\r\nHLEN" ++ "5\r\nHMGET" ++ "7\r\nHSTRLEN" ++ "5\r\nHVALS" ++
   "5\r\nHSCAN" ++ "5\r\nSCARD" ++ "5\r\nSDIFF" ++ "6\r\nSINTER" ++
   "9\r\nSISMEMBER" ++ "8\r\nSMEMBERS" ++ "11\r\nSRANDMEMBER" ++
   "6\r\nSUNION" ++ "5\r\nSSCAN" ++ "5\r\nZCARD" ++ "6\r\nZCOUNT" ++
   "9\r\nZLEXCOUNT" ++ "6\r\nZRANGE" ++ "11\r\nZRANGEBYLEX" ++
   "13\r\nZRANGEBYSCORE" ++ "5\r\nZRANK" ++ "9\r\nZREVRANGE" ++
   "14\r\nZREVRANGEBYLEX" ++ "16\r\nZREVRANGEBYSCORE" ++
   "8\r\nZREVRANK" ++ "6\r\nZSCORE" ++ "5\r\nZSCAN" ++ "6\r\nLINDEX" ++
   "4\r\nLLEN" ++ "6\r\nLRANGE" ++ "7\r\nPFCOUNT").toList

/-- `reqWriteCmdsBytes` (request.go). -/
def reqWriteCmdsBytes : List Char :=
  ("3\r\nDEL" ++ "6\r\nEXPIRE" ++ "8\r\nEXPIREAT" ++ "7\r\nPERSIST" ++
   "7\r\nPEXPIRE" ++ "9\r\nPEXPIREAT" ++ "7\r\nRESTORE" ++ "4\r\nSORT" ++
   "6\r\nAPPEND" ++ "4\r\nDECR" ++ "6\r\nDECRBY" ++ "6\r\nGETSET" ++
   "4\r\nINCR" ++ "6\r\nINCRBY" ++ "11\r\nINCRBYFLOAT" ++ "4\r\nMSET" ++
   "6\r\nPSETEX" ++ "3\r\nSET" ++ "6\r\nSETBIT" ++ "5\r\nSETEX" ++
   "5\r\nSETNX" ++ "8\r\nSETRANGE" ++ "4\r\nHDEL" ++ "7\r\nHINCRBY" ++
   "12\r\nHINCRBYFLOAT" ++ "5\r\nHMSET" ++ "4\r\nHSET" ++
   "6\r\nHSETNX" ++ "7\r\nLINSERT" ++ "4\r\nLPOP" ++ "5\r\nLPUSH" ++
   "6\r\nLPUSHX" ++ "4\r\nLREM" ++ "4\r\nLSET" ++ "5\r\nLTRIM" ++
   "4\r\nRPOP" ++ "9\r\nRPOPLPUSH" ++ "5\r\nRPUSH" ++ "6\r\nRPUSHX" ++
   "4\r\nSADD" ++ "5\r\nSMOVE" ++ "4\r\nSPOP" ++ "4\r\nSREM" ++
   "4\r\nZADD" ++ "7\r\nZINCRBY" ++ "11\r\nZINTERSTORE" ++
   "4\r\nZREM" ++ "14\r\nZREMRANGEBYLEX" ++ "15\r\nZREMRANGEBYRANK" ++
   "16\r\nZREMRANGEBYSCORE" ++ "5\r\nPFADD" ++ "7\r\nPFMERGE").toList

/-- `reqNotSupportCmdsBytes` (request.go). -/
def reqNotSupportCmdsBytes : List Char :=
  ("6\r\nMSETNX" ++ "10\r\nSDIFFSTORE" ++ "11\r\nSINTERSTORE" ++
   "11\r\nSUNIONSTORE" ++ "11\r\nZUNIONSTORE" ++ "5\r\nBLPOP" ++
   "5\r\nBRPOP" ++ "10\r\nBRPOPLPUSH" ++ "4\r\nKEYS" ++
   "7\r\nMIGRATE" ++ "4\r\nMOVE" ++ "6\r\nOBJECT" ++
   "9\r\nRANDOMKEY" ++ "6\r\nRENAME" ++ "8\r\nRENAMENX" ++
   "4\r\nSCAN" ++ "4\r\nWAIT" ++ "5\r\nBITOP" ++ "4\r\nEVAL" ++
   "7\r\nEVALSHA" ++ "4\r\nAUTH" ++ "4\r\nECHO" ++ "4\r\nINFO" ++
   "5\r\nPROXY" ++ "7\r\nSLOWLOG" ++ "6\r\nSELECT" ++ "4\r\nTIME" ++
   "6\r\nCONFIG" ++ "8\r\nCOMMANDS").toList

/-- `reqCtlCmdsBytes` (request.go). -/
def reqCtlCmdsBytes : List Char := ("4\r\nQUIT" ++ "4\r\nPING").toList

/-- The part of `redis.Request` that `IsSupport` reads: the array
length `resp.arrayn` and the first element's `data`. -/
structure RedisRequest where
  arrayn : Nat
  array0data : List Char
  deriving Repr, DecidableEq

/-- `Request.IsSupport` (request.go): a command is supported iff its
first bulk's data occurs in the read, write or control blob.  The
not-support blob is never consulted. -/
def IsSupport (r : RedisRequest) : Bool :=
  if r.arrayn < 1 then false
  else
    bytesContains reqReadCmdsBytes r.array0data ||
    bytesContains reqWriteCmdsBytes r.array0data ||
    bytesContains reqCtlCmdsBytes r.array0data

/-- The `data` field the RESP parser leaves in a request's first bulk
for command `name`: its byte length, CRLF, then the name. -/
def bulkCmdData (name : String) : List Char :=
  (toString name.length ++ "\r\n" ++ name).toList

/-- A parsed one-argument command `name key`, as `IsSupport` sees it. -/
def mkCmdReq (name : String) : RedisRequest :=
  { arrayn := 2, array0data := bulkCmdData name }

/-- Every entry of `reqNotSupportCmdsBytes`, by name. -/
def notSupportNames : List String :=
  ["MSETNX", "SDIFFSTORE", "SINTERSTORE", "SUNIONSTORE", "ZUNIONSTORE",
   "BLPOP", "BRPOP", "BRPOPLPUSH", "KEYS", "MIGRATE", "MOVE", "OBJECT",
   "RANDOMKEY", "RENAME", "RENAMENX", "SCAN", "WAIT", "BITOP", "EVAL",
   "EVALSHA", "AUTH", "ECHO", "INFO", "PROXY", "SLOWLOG", "SELECT",
   "TIME", "CONFIG", "COMMANDS"]

/-- The supported commands the claim names explicitly. -/
def claimSupportedNames : List String :=
  ["GET", "SET", "DEL", "EXISTS", "MGET", "MSET", "PING", "QUIT"]

/-! ## Memcache backend handler (package memcache, `handler.Handle`)

The connection is an input byte stream (`List Char`); `bufio` reads
consume a prefix of it.  The write side is pure: the buffered writer's
flush output is the concatenation of the encoded requests.  The
auxiliary slab (`makeBytes`) only affects allocation, not the bytes
assembled, so the reply is modelled as the assembled byte list.
-/

/-- `delim` (memcache codec). -/
def delim : Char := '\n'

/-- `spaceByte` (memcache codec). -/
def spaceByte : Char := ' '

/-- `crlfBytes` (memcache codec). -/
def crlfBytes : List Char := ['\r', '\n']

/-- `endBytes` (memcache codec): the retrieval terminator line. -/
def endBytes : List Char := "END\r\n".toList

/-- The memcache request types (`RequestTypeGet`, … — the enum lives
beside the handler, outside the included sources; the handler uses
exactly these: retrievals are get/gets/gat/gats). -/
inductive RequestType where
  | get | gets | set | add | replace | append | prepend | cas
  | incr | decr | delete | touch | gat | gats
  deriving Repr, DecidableEq

/-- `rTp.String()`: the wire name of each request type. -/
def RequestType.string : RequestType → List Char
  | .get => "get".toList
  | .gets => "gets".toList
  | .set => "set".toList
  | .add => "add".toList
  | .replace => "replace".toList
  | .append => "append".toList
  | .prepend => "prepend".toList
  | .cas => "cas".toList
  | .incr => "incr".toList
  | .decr => "decr".toList
  | .delete => "delete".toList
  | .touch => "touch".toList
  | .gat => "gat".toList
  | .gats => "gats".toList

/-- The retrieval check of `handler.Handle` line 108. -/
def isRetrieval (t : RequestType) : Bool :=
  t = .get || t = .gets || t = .gat || t = .gats

/-- `memcache.MCRequest`: type, key and remaining raw bytes. -/
structure MCRequest where
  rTp : RequestType
  key : List Char
  data : List Char
  deriving Repr, DecidableEq

/-- Error classes raised on the handler's read path: `ioErr` for a
failed `bufio` read (connection/EOF/timeout), `badResponse` for
`ErrBadResponse`, `closed` for `ErrClosed`. -/
inductive HandleErr where
  | ioErr
  | badResponse
  | closed
  deriving Repr, DecidableEq

/-- Hit/miss counter increments (`stat.Hit` / `stat.Miss`). -/
inductive StatEvent where
  | hit
  | miss
  deriving Repr, DecidableEq

instance instDecEqExcept {ε α : Type} [DecidableEq ε] [DecidableEq α] :
    DecidableEq (Except ε α) := fun x y => by
  cases x <;> cases y
  case error.error a b =>
    exact if h : a = b then isTrue (by rw [h]) else isFalse (by simp [h])
  case error.ok a b => exact isFalse (by simp)
  case ok.error a b => exact isFalse (by simp)
  case ok.ok a b =>
    exact if h : a = b then isTrue (by rw [h]) else isFalse (by simp [h])

/-- `h.br.ReadBytes(delim)`: the bytes up to and including the first
newline, plus the remaining stream; an I/O error if no newline
arrives. -/
def readBytesNL : List Char → Except HandleErr (List Char × List Char)
  | [] => .error .ioErr
  | c :: rest =>
    if c = delim then .ok ([c], rest)
    else
      match readBytesNL rest with
      | .ok (l, r) => .ok (c :: l, r)
      | .error e => .error e

/-- `h.br.ReadFull(n)` for the `int(length + 2)` body read; a negative
count (a `make` panic in Go) is modelled as an I/O error. -/
def readFullInt (n : Int) (s : List Char) :
    Except HandleErr (List Char × List Char) :=
  if n < 0 then .error .ioErr
  else if n.toNat ≤ s.length then .ok (s.take n.toNat, s.drop n.toNat)
  else .error .ioErr

/-- `bytes.Split(bs, spaceBytes)`: split on every space, keeping empty
fields. -/
def splitSpace : List Char → List (List Char)
  | [] => [[]]
  | c :: rest =>
    if c = spaceByte then [] :: splitSpace rest
    else
      match splitSpace rest with
      | [] => [[c]]
      | f :: r => (c :: f) :: r

/-- `conv.Btoi` (lib/conv, outside the included sources): parse a
decimal integer, optionally signed; `none` on empty or non-digit
input. -/
def btoiNat (l : List Char) : Option Nat :=
  if l.isEmpty then none
  else
    l.foldl
      (fun acc c =>
        acc.bind fun n =>
          if c.isDigit then some (10 * n + (c.toNat - 48)) else none)
      (some 0)

/-- `conv.Btoi`, sign handling. -/
def btoi : List Char → Option Int
  | '-' :: rest => (btoiNat rest).map fun n => -(n : Int)
  | s => (btoiNat s).map fun n => (n : Int)

theorem readBytesNL_shrinks :
    ∀ {s l r : List Char}, readBytesNL s = .ok (l, r) →
      r.length < s.length := by
  intro s
  induction s with
  | nil => intro l r h; simp [readBytesNL] at h
  | cons c rest ih =>
    intro l r h
    simp only [readBytesNL] at h
    by_cases hc : c = delim
    · rw [if_pos hc] at h
      cases h
      simp
    · rw [if_neg hc] at h
      cases hrec : readBytesNL rest with
      | error e => rw [hrec] at h; cases h
      | ok p =>
        rw [hrec] at h
        cases p with
        | mk l2 r2 =>
          cases h
          exact Nat.lt_succ_of_lt (ih hrec)

/-- Character-level worker for the reread loop of `handler.Handle`
lines 138–150: `cur` is the part of the current line read so far.
`readTillEnd_eq` below shows the wrapper satisfies exactly the
source's "ReadBytes until the terminator" recurrence. -/
def readTillEndAux : List Char → List Char →
    Except HandleErr (List (List Char) × List Char)
  | _, [] => .error .ioErr
  | cur, c :: rest =>
    if c = delim then
      if cur ++ [c] = endBytes then .ok ([], rest)
      else
        match readTillEndAux [] rest with
        | .ok (ls, r) => .ok ((cur ++ [c]) :: ls, r)
        | .error e => .error e
    else readTillEndAux (cur ++ [c]) rest

/-- The reread loop of `handler.Handle` lines 138–150: read lines,
collecting every one except the terminator, until `END\r\n` arrives. -/
def readTillEnd (s : List Char) :
    Except HandleErr (List (List Char) × List Char) :=
  readTillEndAux [] s

/-- `handler.Handle` lines 124–159, after the length field `fld` has
been extracted: parse the body length, read `length + 2` bytes, read
the remaining lines up to the terminator, and assemble the reply as
first line ++ body ++ extra lines ++ a fresh `END\r\n`. -/
def finishValueReply (bs s1 fld : List Char) :
    Except HandleErr (List Char × List Char) :=
  match btoi fld with
  | none => .error .badResponse
  | some len =>
    match readFullInt (len + 2) s1 with
    | .error _ => .error .badResponse
    | .ok (bs2, s2) =>
      match readTillEnd s2 with
      | .error e => .error e
      | .ok (extras, s3) =>
        .ok (bs ++ bs2 ++ extras.flatten ++ endBytes, s3)

/-- `handler.Handle` lines 111–123: split the VALUE line on spaces,
require at least 4 fields, and when there are exactly 4 strip the
trailing CRLF off the length field. -/
def parseValueReply (bs s1 : List Char) :
    Except HandleErr (List Char × List Char) :=
  let bss := splitSpace bs
  if bss.length < 4 then .error .badResponse
  else
    match bss[3]? with
    | none => .error .badResponse
    | some f3 =>
      if bss.length = 4 then
        if f3.length < 2 then .error .badResponse
        else finishValueReply bs s1 (f3.take (f3.length - 2))
      else finishValueReply bs s1 f3

/-- One iteration of the reply loop of `handler.Handle` (lines
100–167): read a line; a retrieval whose line is not the terminator
counts a hit and parses VALUE tuples, the terminator counts a miss and
is attached as-is; non-retrievals attach the line.  The returned list
records the counter increments performed (the hit fires before the
parse, so it is reported also when the parse then fails). -/
def readReply (t : RequestType) (s : List Char) :
    List StatEvent × Except HandleErr (List Char × List Char) :=
  match readBytesNL s with
  | .error e => ([], .error e)
  | .ok (bs, s1) =>
    if isRetrieval t then
      if bs = endBytes then ([.miss], .ok (bs, s1))
      else ([.hit], parseValueReply bs s1)
    else ([], .ok (bs, s1))

/-- The write phase of `handler.Handle` (lines 70–92): one request's
bytes as placed in the buffered writer. -/
def encodeReq (r : MCRequest) : List Char :=
  r.rTp.string ++ [spaceByte] ++
    (if r.rTp = .gat || r.rTp = .gats then
      r.data ++ [spaceByte] ++ r.key ++ crlfBytes
    else r.key ++ r.data)

/-- The bytes `Flush` sends: the requests' encodings accumulated in
writer order. -/
def writeReqs (mcrs : List MCRequest) : List Char :=
  mcrs.foldl (fun acc r => acc ++ encodeReq r) []

/-- Result of the reply loop: replies attached so far (in request
order), counter increments, the error that stopped the loop (if any),
and the unconsumed stream. -/
structure HandleOut where
  resps : List (List Char)
  stats : List StatEvent
  err : Option HandleErr
  rest : List Char
  deriving Repr, DecidableEq

/-- The reply loop of `handler.Handle` (lines 100–168): one reply per
request, in order, stopping at the first error; no further bytes are
consumed after a failure. -/
def handleLoop : List MCRequest → List Char → HandleOut
  | [], s => ⟨[], [], none, s⟩
  | r :: rs, s =>
    match readReply r.rTp s with
    | (st, .error e) => ⟨[], st, some e, s⟩
    | (st, .ok (bs, s1)) =>
      let o := handleLoop rs s1
      ⟨bs :: o.resps, st ++ o.stats, o.err, o.rest⟩

/-- `memcache.handler`: identity and the closed flag (the connection
and buffers live in the stream model). -/
structure MCHandler where
  cluster : List Char
  addr : List Char
  closed : Bool
  deriving Repr, DecidableEq

/-- `handler.Closed` (part_001). -/
def MCHandler.Closed (h : MCHandler) : Bool := h.closed

/-- `handler.Close` (part_001): CAS to closed (idempotent). -/
def MCHandler.Close (h : MCHandler) : MCHandler := { h with closed := true }

/-- `handler.Handle` (part_001): reject when closed (nothing written
or read); otherwise write and flush every request, then run the reply
loop.  The first component is the flushed bytes. -/
def Handle (h : MCHandler) (mcrs : List MCRequest) (s : List Char) :
    List Char × HandleOut :=
  if h.Closed then ([], ⟨[], [], some .closed, s⟩)
  else (writeReqs mcrs, handleLoop mcrs s)

/-- Per-message outcome of a dispatch: the updated handler, each
message's attached reply (or `none`), and which messages got an
IOError-class error. -/
structure DispatchOut where
  handler : MCHandler
  replies : List (Option (List Char))
  msgErrs : List Bool
  rest : List Char
  deriving Repr, DecidableEq

/-- Modelled from the spec: the per-node executor that calls
`handler.Handle` is outside the included sources; per §4.4, on success
it attaches the `i`-th reply to the `i`-th message, and on an error at
reply `i` it closes the handler and errors messages `i..n-1` with an
IOError-class error. -/
def dispatchToNode (h : MCHandler) (mcrs : List MCRequest)
    (s : List Char) : DispatchOut :=
  match (Handle h mcrs s).2.err with
  | none =>
    ⟨h, (Handle h mcrs s).2.resps.map some, mcrs.map fun _ => false,
     (Handle h mcrs s).2.rest⟩
  | some _ =>
    ⟨h.Close,
     (Handle h mcrs s).2.resps.map some ++
       List.replicate (mcrs.length - (Handle h mcrs s).2.resps.length) none,
     List.replicate (Handle h mcrs s).2.resps.length false ++
       List.replicate (mcrs.length - (Handle h mcrs s).2.resps.length) true,
     (Handle h mcrs s).2.rest⟩

/-- The replies read from the stream correspond one-to-one, in order,
to the requests: the `i`-th reply is parsed from the stream left by
the first `i` replies and attached to the `i`-th request. -/
inductive RepliesInOrder :
    List MCRequest → List Char → List (List Char) → List Char → Prop where
  | nil (s : List Char) : RepliesInOrder [] s [] s
  | cons {r : MCRequest} {rs : List MCRequest} {s s1 rest : List Char}
      {bs : List Char} {resps : List (List Char)} {st : List StatEvent} :
      readReply r.rTp s = (st, .ok (bs, s1)) →
      RepliesInOrder rs s1 resps rest →
      RepliesInOrder (r :: rs) s (bs :: resps) rest

/-! ### Lemmas about AddMsg / Nth -/

namespace MsgBatch

theorem addMsg_count (m : MsgBatch) (msg : Msg) :
    (m.AddMsg msg).count = m.count + 1 := by
  unfold AddMsg; split <;> rfl

theorem addMsg_wf (m : MsgBatch) (msg : Msg) (h : m.WF) :
    (m.AddMsg msg).WF := by
  unfold AddMsg WF at *
  split
  · simpa using h
  · simpa using Nat.succ_le_of_lt (Nat.lt_of_not_le (by assumption))

theorem addMsg_get_last (m : MsgBatch) (msg : Msg) (h : m.WF) :
    (m.AddMsg msg).msgs[m.count]? = some msg := by
  unfold AddMsg
  split
  · have hlen : m.msgs.length = m.count := Nat.le_antisymm (by assumption) h
    simp [hlen]
  · have hlt : m.count < m.msgs.length := Nat.lt_of_not_le (by assumption)
    simp [List.getElem?_set, hlt]

theorem addMsg_get_lt (m : MsgBatch) (msg : Msg) {j : Nat} (hj : j < m.count)
    (h : m.WF) : (m.AddMsg msg).msgs[j]? = m.msgs[j]? := by
  unfold AddMsg
  split
  · exact List.getElem?_append_left (Nat.lt_of_lt_of_le hj h)
  · exact List.getElem?_set_ne (Nat.ne_of_lt hj).symm

/-- Adding a list of messages with `foldl AddMsg`. -/
theorem foldl_addMsg_spec (ms : List Msg) (m : MsgBatch) (h : m.WF) :
    (ms.foldl AddMsg m).WF ∧
    (ms.foldl AddMsg m).count = m.count + ms.length ∧
    (∀ i : Fin ms.length,
      (ms.foldl AddMsg m).msgs[m.count + i.val]? = some (ms.get i)) ∧
    (∀ j, j < m.count → (ms.foldl AddMsg m).msgs[j]? = m.msgs[j]?) := by
  induction ms generalizing m with
  | nil => exact ⟨h, rfl, fun i => absurd i.isLt (by simp), fun j _ => rfl⟩
  | cons x xs ih =>
    obtain ⟨wf', cnt', get', old'⟩ := ih (m.AddMsg x) (addMsg_wf m x h)
    refine ⟨wf', ?_, ?_, ?_⟩
    · simp [cnt', addMsg_count, Nat.add_assoc, Nat.add_comm 1]
    · intro i
      rcases i with ⟨iv, hi⟩
      cases iv with
      | zero =>
        have := old' m.count (by simp [addMsg_count])
        simpa [this] using addMsg_get_last m x h
      | succ k =>
        have hk : k < xs.length := by simpa using hi
        have := get' ⟨k, hk⟩
        simpa [addMsg_count, Nat.add_assoc, Nat.add_comm 1] using this
    · intro j hj
      have h1 := old' j (by simp [addMsg_count]; omega)
      rw [List.foldl_cons, h1, addMsg_get_lt m x hj h]

end MsgBatch

/-- C9: `Reset` clears count, message view, done-state, buffer and the
parent link, while the underlying `msgs` slice and the `dc` field are
unchanged. -/
theorem reset_clears_but_keeps_capacity (m : MsgBatch) :
    (m.Reset).Count = 0 ∧ (m.Reset).Msgs = [] ∧
    (m.Reset).IsDone = false ∧ (m.Reset).buf = [] ∧
    (m.Reset).parent = none ∧
    (m.Reset).msgs = m.msgs ∧ (m.Reset).dc = m.dc :=
  ⟨rfl, rfl, rfl, rfl, rfl, rfl, rfl⟩

/-- C10: `Nth` is total: it yields the `i`-th message added since the
last `Reset` when `i < Count` and `nil` (`none`) past the count;
messages added by `AddMsg` are retrievable in insertion order, earlier
entries are untouched, and `AddMsg` keeps `count` within the slice
(growing the slice exactly when `count` reaches its length). -/
theorem nth_total_and_insertion_order (m : MsgBatch) (ms : List Msg)
    (h : m.WF) :
    (∀ i, m.Count ≤ i → m.Nth i = none) ∧
    (∀ msg, (m.AddMsg msg).WF) ∧
    ((ms.foldl MsgBatch.AddMsg m).WF ∧
     (ms.foldl MsgBatch.AddMsg m).Count = m.Count + ms.length ∧
     (∀ i : Fin ms.length,
       (ms.foldl MsgBatch.AddMsg m).Nth (m.Count + i.val) = some (ms.get i)) ∧
     (∀ j, j < m.Count → (ms.foldl MsgBatch.AddMsg m).Nth j = m.Nth j)) := by
  obtain ⟨wf', cnt', get', old'⟩ := MsgBatch.foldl_addMsg_spec ms m h
  refine ⟨?_, fun msg => MsgBatch.addMsg_wf m msg h, wf', cnt', ?_, ?_⟩
  · intro i hi
    unfold MsgBatch.Count at hi
    simp only [MsgBatch.Nth, if_neg (Nat.not_lt.mpr hi)]
  · intro i
    have hlt : m.Count + i.val < (ms.foldl MsgBatch.AddMsg m).count := by
      unfold MsgBatch.Count
      rw [cnt']; exact Nat.add_lt_add_left i.isLt _
    simp only [MsgBatch.Nth, if_pos hlt]
    exact get' i
  · intro j hj
    unfold MsgBatch.Count at hj
    have hlt : j < (ms.foldl MsgBatch.AddMsg m).count := by
      rw [cnt']; exact Nat.lt_of_lt_of_le hj (Nat.le_add_right _ _)
    simp only [MsgBatch.Nth, if_pos hlt, if_pos hj]
    exact old' j hj

/-- Witness for C10 at a concrete batch and message list. -/
theorem nth_total_and_insertion_order_witness :
    (∀ i, (MsgBatch.mk [] [] 0 0 false none).Count ≤ i →
      (MsgBatch.mk [] [] 0 0 false none).Nth i = none) ∧
    (∀ msg, ((MsgBatch.mk [] [] 0 0 false none).AddMsg msg).WF) ∧
    (([7, 9].foldl MsgBatch.AddMsg (MsgBatch.mk [] [] 0 0 false none)).WF ∧
     ([7, 9].foldl MsgBatch.AddMsg (MsgBatch.mk [] [] 0 0 false none)).Count =
       (MsgBatch.mk [] [] 0 0 false none).Count + [7, 9].length ∧
     (∀ i : Fin ([7, 9] : List Msg).length,
       ([7, 9].foldl MsgBatch.AddMsg (MsgBatch.mk [] [] 0 0 false none)).Nth
         ((MsgBatch.mk [] [] 0 0 false none).Count + i.val) =
         some (([7, 9] : List Msg).get i)) ∧
     (∀ j, j < (MsgBatch.mk [] [] 0 0 false none).Count →
       ([7, 9].foldl MsgBatch.AddMsg (MsgBatch.mk [] [] 0 0 false none)).Nth j =
         (MsgBatch.mk [] [] 0 0 false none).Nth j)) :=
  nth_total_and_insertion_order (MsgBatch.mk [] [] 0 0 false none) [7, 9]
    (Nat.le_refl 0)

/-! ### Lemmas about Done / Fork -/

theorem rootOf_of_parent_none {heap : List MsgBatch} {i : Nat}
    (h : heap[i]? >>= MsgBatch.parent = none) (fuel : Nat) :
    rootOf heap fuel i = i := by
  cases fuel with
  | zero => rfl
  | succ n => simp [rootOf, h]

theorem rootOf_congr {heap heap' : List MsgBatch}
    (h : ∀ j : Nat,
      heap'[j]? >>= MsgBatch.parent = heap[j]? >>= MsgBatch.parent)
    (fuel i : Nat) : rootOf heap' fuel i = rootOf heap fuel i := by
  induction fuel generalizing i with
  | zero => rfl
  | succ n ih =>
    simp only [rootOf, h i]
    cases heap[i]? >>= MsgBatch.parent with
    | none => rfl
    | some p => exact ih p

theorem done_heap_parents (s : BatchSys) (i : Nat) : ∀ j : Nat,
    (s.Done i).heap[j]? >>= MsgBatch.parent =
      s.heap[j]? >>= MsgBatch.parent := by
  intro j
  unfold BatchSys.Done
  cases hb : s.heap[rootOf s.heap s.heap.length i]? with
  | none => simp [hb]
  | some b =>
    simp only [hb]
    by_cases hj : j = rootOf s.heap s.heap.length i
    · have hlen : j < s.heap.length := by
        rw [hj]; exact (List.getElem?_eq_some_iff.mp hb).1
      rw [hj, List.getElem?_set_self
        (by simpa using (List.getElem?_eq_some_iff.mp hb).1), hb]
      rfl
    · rw [List.getElem?_set_ne (fun he => hj he.symm)]

theorem done_heap_length (s : BatchSys) (i : Nat) :
    (s.Done i).heap.length = s.heap.length := by
  unfold BatchSys.Done
  cases hb : s.heap[rootOf s.heap s.heap.length i]? with
  | none => simp [hb]
  | some b => simp [hb]

theorem chanSend_idem (c : Nat) : chanSend (chanSend c) = chanSend c := by
  cases c with
  | zero => rfl
  | succ n =>
    have h : ¬ n + 1 < 1 := by omega
    simp [chanSend, h]

theorem chanSend_le_one {c : Nat} (h : c ≤ 1) : chanSend c ≤ 1 := by
  unfold chanSend
  split <;> omega

/-- `Done` written out, once the root's cell is known. -/
theorem done_eq (s : BatchSys) (i : Nat) {b : MsgBatch}
    (hb : s.heap[rootOf s.heap s.heap.length i]? = some b) :
    s.Done i = ⟨s.heap.set (rootOf s.heap s.heap.length i)
      { b with state := true }, chanSend s.chan⟩ := by
  unfold BatchSys.Done
  simp only [hb]

/-- C2: `Done(i)` marks the root of `i`'s parent chain done, is
idempotent on the whole system state, keeps at most one pending signal
in the shared depth-1 done channel, and a batch forked from `i` has the
same root, so `Done` on the fork marks that root as well. -/
theorem done_sets_root_idempotent (s : BatchSys) (i : Nat)
    (hr : rootOf s.heap s.heap.length i < s.heap.length)
    (hroot : s.heap[rootOf s.heap s.heap.length i]? >>= MsgBatch.parent
      = none) :
    (((s.Done i).heap[rootOf s.heap s.heap.length i]?).map MsgBatch.state
       = some true) ∧
    (s.Done i).Done i = s.Done i ∧
    (s.chan ≤ 1 → (s.Done i).chan ≤ 1) ∧
    (rootOf (s.Fork i).heap (s.Fork i).heap.length s.heap.length
       = rootOf s.heap s.heap.length i) ∧
    ((((s.Fork i).Done s.heap.length).heap[rootOf s.heap s.heap.length i]?).map
       MsgBatch.state = some true) := by
  have hb : s.heap[rootOf s.heap s.heap.length i]?
      = some (s.heap.get ⟨rootOf s.heap s.heap.length i, hr⟩) :=
    List.getElem?_eq_getElem hr
  set r := rootOf s.heap s.heap.length i with hrdef
  set b := s.heap.get ⟨r, hr⟩ with hbdef
  have hset : (s.heap.set r { b with state := true })[r]?
      = some { b with state := true } :=
    List.getElem?_set_self (by simpa using hr)
  refine ⟨?_, ?_, ?_, ?_, ?_⟩
  · rw [done_eq s i hb]
    show ((s.heap.set r { b with state := true })[r]?).map MsgBatch.state
      = some true
    rw [hset]
    rfl
  · -- idempotence
    have h1 : s.Done i
        = ⟨s.heap.set r { b with state := true }, chanSend s.chan⟩ :=
      done_eq s i hb
    have hlen1 : (s.Done i).heap.length = s.heap.length :=
      done_heap_length s i
    have hroot1 : rootOf (s.Done i).heap (s.Done i).heap.length i = r := by
      rw [hlen1, rootOf_congr (done_heap_parents s i)]
    have hb1 : (s.Done i).heap[rootOf (s.Done i).heap
        (s.Done i).heap.length i]? = some { b with state := true } := by
      rw [hroot1, h1, hset]
    rw [done_eq (s.Done i) i hb1, hroot1, h1]
    rw [List.set_set, chanSend_idem]
  · intro hc
    rw [done_eq s i hb]
    exact chanSend_le_one hc
  · -- the fork's root is the old root
    have hlenF : (s.Fork i).heap.length = s.heap.length + 1 := by
      simp [BatchSys.Fork]
    have hlast : (s.Fork i).heap[s.heap.length]? >>= MsgBatch.parent
        = some r := by
      unfold BatchSys.Fork
      rw [List.getElem?_concat_length]
      rfl
    have hparF : (s.Fork i).heap[r]? >>= MsgBatch.parent = none := by
      unfold BatchSys.Fork
      rw [List.getElem?_append_left hr]
      exact hroot
    rw [hlenF]
    show rootOf (s.Fork i).heap (s.heap.length + 1) s.heap.length = r
    rw [rootOf]
    simp only [hlast]
    exact rootOf_of_parent_none hparF _
  · -- Done on the fork marks the old root
    have hlenF : (s.Fork i).heap.length = s.heap.length + 1 := by
      simp [BatchSys.Fork]
    have hlast : (s.Fork i).heap[s.heap.length]? >>= MsgBatch.parent
        = some r := by
      unfold BatchSys.Fork
      rw [List.getElem?_concat_length]
      rfl
    have hparF : (s.Fork i).heap[r]? >>= MsgBatch.parent = none := by
      unfold BatchSys.Fork
      rw [List.getElem?_append_left hr]
      exact hroot
    have hbF : (s.Fork i).heap[r]? = some b := by
      unfold BatchSys.Fork
      rw [List.getElem?_append_left hr]
      exact hb
    have hrootF : rootOf (s.Fork i).heap (s.Fork i).heap.length
        s.heap.length = r := by
      rw [hlenF]
      show rootOf (s.Fork i).heap (s.heap.length + 1) s.heap.length = r
      rw [rootOf]
      simp only [hlast]
      exact rootOf_of_parent_none hparF _
    have hbF' : (s.Fork i).heap[rootOf (s.Fork i).heap
        (s.Fork i).heap.length s.heap.length]? = some b := by
      rw [hrootF]; exact hbF
    rw [done_eq (s.Fork i) s.heap.length hbF', hrootF]
    have hrF : r < (s.Fork i).heap.length := by
      rw [hlenF]; exact Nat.lt_succ_of_lt hr
    have hsetF : ((s.Fork i).heap.set r { b with state := true })[r]?
        = some { b with state := true } :=
      List.getElem?_set_self (by simpa using hrF)
    show (((s.Fork i).heap.set r { b with state := true })[r]?).map
      MsgBatch.state = some true
    rw [hsetF]
    rfl

/-- Witness for C2: a two-batch heap, batch 1 parented on root 0. -/
theorem done_sets_root_idempotent_witness :
    (rootOf (BatchSys.mk
        [MsgBatch.mk [] [] 0 5 false none,
         MsgBatch.mk [] [] 0 5 false (some 0)] 0).heap 2 1 < 2) ∧
    ((((BatchSys.mk
        [MsgBatch.mk [] [] 0 5 false none,
         MsgBatch.mk [] [] 0 5 false (some 0)] 0).Done 1).heap[
          rootOf (BatchSys.mk
            [MsgBatch.mk [] [] 0 5 false none,
             MsgBatch.mk [] [] 0 5 false (some 0)] 0).heap 2 1]?).map
        MsgBatch.state = some true) := by
  have h := done_sets_root_idempotent
    (BatchSys.mk
      [MsgBatch.mk [] [] 0 5 false none,
       MsgBatch.mk [] [] 0 5 false (some 0)] 0) 1
    (by decide) (by decide)
  exact ⟨by decide, h.1⟩

/-! ### Lemmas about Wait -/

theorem waitLoop_ok {pre rest : List WaitEvent} {mbs : List MBView}
    {n : Nat} (hpre : ∀ e ∈ pre, isFailedWake e = true)
    (hlen : pre.length < n) (hall : checkAllDone mbs = true) :
    waitLoop n (pre ++ WaitEvent.wake mbs :: rest) = some WaitResult.ok := by
  induction pre generalizing n with
  | nil =>
    obtain ⟨m, rfl⟩ := Nat.exists_eq_succ_of_ne_zero (Nat.pos_iff_ne_zero.mp hlen)
    simp [waitLoop, hall]
  | cons e pre' ih =>
    obtain ⟨m, rfl⟩ := Nat.exists_eq_succ_of_ne_zero
      (Nat.pos_iff_ne_zero.mp (Nat.lt_of_le_of_lt (Nat.zero_le _) hlen))
    have he := hpre e (by simp)
    cases e with
    | timeout => simp [isFailedWake] at he
    | wake mbs' =>
      have hfail : checkAllDone mbs' = false := by
        simpa [isFailedWake] using he
      simp only [List.cons_append, waitLoop, hfail, if_neg]
      exact ih (fun x hx => hpre x (by simp [hx]))
        (by simpa using Nat.lt_of_succ_lt_succ hlen)

theorem waitLoop_timeout {pre rest : List WaitEvent} {n : Nat}
    (hpre : ∀ e ∈ pre, isFailedWake e = true) (hlen : pre.length < n) :
    waitLoop n (pre ++ WaitEvent.timeout :: rest)
      = some WaitResult.timeout := by
  induction pre generalizing n with
  | nil =>
    obtain ⟨m, rfl⟩ := Nat.exists_eq_succ_of_ne_zero (Nat.pos_iff_ne_zero.mp hlen)
    simp [waitLoop]
  | cons e pre' ih =>
    obtain ⟨m, rfl⟩ := Nat.exists_eq_succ_of_ne_zero
      (Nat.pos_iff_ne_zero.mp (Nat.lt_of_le_of_lt (Nat.zero_le _) hlen))
    have he := hpre e (by simp)
    cases e with
    | timeout => simp [isFailedWake] at he
    | wake mbs' =>
      have hfail : checkAllDone mbs' = false := by
        simpa [isFailedWake] using he
      simp only [List.cons_append, waitLoop, hfail, if_neg]
      exact ih (fun x hx => hpre x (by simp [hx]))
        (by simpa using Nat.lt_of_succ_lt_succ hlen)

theorem waitLoop_maxRetry_iff (n : Nat) (events : List WaitEvent) :
    waitLoop n events = some WaitResult.maxRetry ↔
      ((events.take n).length = n ∧
       ∀ e ∈ events.take n, isFailedWake e = true) := by
  induction n generalizing events with
  | zero => simp [waitLoop]
  | succ m ih =>
    cases events with
    | nil => simp [waitLoop]
    | cons e rest =>
      cases e with
      | timeout =>
        simp [waitLoop, isFailedWake]
      | wake mbs =>
        by_cases hall : checkAllDone mbs = true
        · simp [waitLoop, hall, isFailedWake]
        · have hfail : checkAllDone mbs = false := by
            simpa using hall
          simp only [waitLoop, hfail, Bool.false_eq_true, if_false,
            List.take_succ_cons, List.length_cons, List.mem_cons]
          rw [ih rest]
          constructor
          · rintro ⟨h1, h2⟩
            refine ⟨by omega, ?_⟩
            rintro x (rfl | hx)
            · simp [isFailedWake, hfail]
            · exact h2 x hx
          · rintro ⟨h1, h2⟩
            exact ⟨by omega, fun x hx => h2 x (Or.inr hx)⟩

/-- C3 (amended): for an allocator with at least one sub-batch, `Wait`
returns `Ok` as soon as a wakeup finds every non-empty sub-batch done,
`Timeout` when the timer fires first, and `MaxRetry` exactly when the
first `batchCount + 8` events are all wakeups that find the sub-batches
not all done (i.e. after being woken exactly `batchCount + 8` times
without convergence — not "more than"). -/
theorem wait_result_spec (mbLen : Nat) (hm : 1 ≤ mbLen) :
    (∀ (pre rest : List WaitEvent) (mbs : List MBView),
      (∀ e ∈ pre, isFailedWake e = true) →
      pre.length < mbLen + maxRetryTimes →
      checkAllDone mbs = true →
      Wait mbLen (pre ++ WaitEvent.wake mbs :: rest)
        = some WaitResult.ok) ∧
    (∀ (pre rest : List WaitEvent),
      (∀ e ∈ pre, isFailedWake e = true) →
      pre.length < mbLen + maxRetryTimes →
      Wait mbLen (pre ++ WaitEvent.timeout :: rest)
        = some WaitResult.timeout) ∧
    (∀ events : List WaitEvent,
      Wait mbLen events = some WaitResult.maxRetry ↔
        ((events.take (mbLen + maxRetryTimes)).length
            = mbLen + maxRetryTimes ∧
         ∀ e ∈ events.take (mbLen + maxRetryTimes),
           isFailedWake e = true)) := by
  have hne : mbLen ≠ 0 := by omega
  refine ⟨?_, ?_, ?_⟩
  · intro pre rest mbs hpre hlen hall
    unfold Wait
    rw [if_neg hne]
    exact waitLoop_ok hpre hlen hall
  · intro pre rest hpre hlen
    unfold Wait
    rw [if_neg hne]
    exact waitLoop_timeout hpre hlen
  · intro events
    unfold Wait
    rw [if_neg hne]
    exact waitLoop_maxRetry_iff _ events

/-- Witness for C3's amended theorem at `batchCount = 1`. -/
theorem wait_result_spec_witness :
    (∀ (pre rest : List WaitEvent) (mbs : List MBView),
      (∀ e ∈ pre, isFailedWake e = true) →
      pre.length < 1 + maxRetryTimes →
      checkAllDone mbs = true →
      Wait 1 (pre ++ WaitEvent.wake mbs :: rest)
        = some WaitResult.ok) ∧
    (∀ (pre rest : List WaitEvent),
      (∀ e ∈ pre, isFailedWake e = true) →
      pre.length < 1 + maxRetryTimes →
      Wait 1 (pre ++ WaitEvent.timeout :: rest)
        = some WaitResult.timeout) ∧
    (∀ events : List WaitEvent,
      Wait 1 events = some WaitResult.maxRetry ↔
        ((events.take (1 + maxRetryTimes)).length = 1 + maxRetryTimes ∧
         ∀ e ∈ events.take (1 + maxRetryTimes),
           isFailedWake e = true)) :=
  wait_result_spec 1 (by decide)

/-- Counterexample to C3 as stated: with one sub-batch, `Wait` already
returns `MaxRetry` after being woken exactly `1 + 8 = 9` times without
convergence — it never gets woken "more than `batchCount + 8` times". -/
theorem wait_maxretry_at_exact_bound :
    Wait 1 (List.replicate 9 (WaitEvent.wake [MBView.mk 1 false]))
      = some WaitResult.maxRetry ∧
    (List.replicate 9 (WaitEvent.wake [MBView.mk 1 false])).length
      = 1 + maxRetryTimes := by
  constructor
  · rfl
  · rfl

/-- C8: with an empty node-batch map, `Wait` consumes exactly one
event: a ping yields `Ok` (the all-done check over the empty map
succeeds) and the deadline yields `Timeout`; the outcome never depends
on events after the first. -/
theorem wait_empty_honors_one_ping (e : WaitEvent)
    (rest rest' : List WaitEvent)
    (hsnap : ∀ mbs, e = WaitEvent.wake mbs → mbs = []) :
    (∀ mbs, e = WaitEvent.wake mbs →
      Wait 0 (e :: rest) = some WaitResult.ok) ∧
    (e = WaitEvent.timeout → Wait 0 (e :: rest) = some WaitResult.timeout) ∧
    Wait 0 (e :: rest) = Wait 0 (e :: rest') := by
  refine ⟨?_, ?_, ?_⟩
  · intro mbs he
    have hm := hsnap mbs he
    subst he
    subst hm
    rfl
  · intro he
    subst he
    rfl
  · cases e with
    | wake mbs => rfl
    | timeout => rfl

/-- Witness for C8: a single ping on the empty allocator returns Ok. -/
theorem wait_empty_honors_one_ping_witness :
    (∀ mbs, WaitEvent.wake [] = WaitEvent.wake mbs →
      Wait 0 [WaitEvent.wake []] = some WaitResult.ok) ∧
    (WaitEvent.wake [] = WaitEvent.timeout →
      Wait 0 [WaitEvent.wake []] = some WaitResult.timeout) ∧
    Wait 0 [WaitEvent.wake []]
      = Wait 0 [WaitEvent.wake [], WaitEvent.timeout] := by
  have h := wait_empty_honors_one_ping (WaitEvent.wake []) []
    [WaitEvent.timeout] (fun mbs he => by cases he; rfl)
  exact h

/-! ### IsSupport -/

/-! ### Lemmas about the memcache read path -/

/-- `readTillEndAux` satisfies the source loop's recurrence: read one
line with `ReadBytes`, stop on the terminator, else collect and
recurse. -/
theorem readTillEndAux_eq : ∀ (s cur : List Char),
    readTillEndAux cur s =
      match readBytesNL s with
      | .error e => .error e
      | .ok (l, r) =>
        if cur ++ l = endBytes then .ok ([], r)
        else
          match readTillEndAux [] r with
          | .ok (ls, r2) => .ok ((cur ++ l) :: ls, r2)
          | .error e => .error e := by
  intro s
  induction s with
  | nil => intro cur; rfl
  | cons c rest ih =>
    intro cur
    by_cases hc : c = delim
    · simp only [readTillEndAux, readBytesNL, if_pos hc]
    · simp only [readTillEndAux, readBytesNL, if_neg hc]
      rw [ih (cur ++ [c])]
      cases hnl : readBytesNL rest with
      | error e => rfl
      | ok p =>
        cases p with
        | mk l r => simp [List.append_assoc]

/-- The wrapper `readTillEnd`, as the source writes the loop. -/
theorem readTillEnd_eq (s : List Char) :
    readTillEnd s =
      match readBytesNL s with
      | .error e => .error e
      | .ok (l, r) =>
        if l = endBytes then .ok ([], r)
        else
          match readTillEnd r with
          | .ok (ls, r2) => .ok (l :: ls, r2)
          | .error e => .error e := by
  unfold readTillEnd
  rw [readTillEndAux_eq]
  cases hnl : readBytesNL s with
  | error e => rfl
  | ok p =>
    cases p with
    | mk l r => simp

/-- A successful `ReadBytes('\n')` consumed one full line: the prefix
up to and including the first newline. -/
theorem readBytesNL_split :
    ∀ {s l r : List Char}, readBytesNL s = .ok (l, r) →
      s = l ++ r ∧ ∃ pre, l = pre ++ [delim] ∧ delim ∉ pre := by
  intro s
  induction s with
  | nil => intro l r h; simp [readBytesNL] at h
  | cons c rest ih =>
    intro l r h
    simp only [readBytesNL] at h
    by_cases hc : c = delim
    · rw [if_pos hc] at h
      cases h
      exact ⟨rfl, [], by simp [hc], by simp⟩
    · rw [if_neg hc] at h
      cases hrec : readBytesNL rest with
      | error e => rw [hrec] at h; cases h
      | ok p =>
        cases p with
        | mk l2 r2 =>
          rw [hrec] at h
          cases h
          obtain ⟨hs, pre, hpre, hnin⟩ := ih hrec
          refine ⟨by rw [hs]; rfl, c :: pre, by rw [hpre]; rfl, ?_⟩
          intro hmem
          rcases List.mem_cons.mp hmem with h1 | h2
          · exact hc h1.symm
          · exact hnin h2

/-- Two lines sharing the stream position are the same line. -/
theorem line_unique :
    ∀ (p₁ : List Char) {p₂ a b : List Char}, delim ∉ p₁ → delim ∉ p₂ →
      p₁ ++ delim :: a = p₂ ++ delim :: b → p₁ = p₂ := by
  intro p₁
  induction p₁ with
  | nil =>
    intro p₂ a b _ h2 heq
    cases p₂ with
    | nil => rfl
    | cons c p₂t =>
      simp only [List.nil_append, List.cons_append, List.cons.injEq] at heq
      exact absurd (List.mem_cons_self _ _) (heq.1 ▸ h2)
  | cons c p₁t ih =>
    intro p₂ a b h1 h2 heq
    cases p₂ with
    | nil =>
      simp only [List.cons_append, List.nil_append, List.cons.injEq] at heq
      exact absurd (List.mem_cons_self _ _) (heq.1 ▸ h1)
    | cons c₂ p₂t =>
      simp only [List.cons_append, List.cons.injEq] at heq
      rw [heq.1,
        ih (fun hm => h1 (List.mem_cons_of_mem _ hm))
          (fun hm => h2 (List.mem_cons_of_mem _ hm)) heq.2]

/-- The reread loop consumed the collected lines plus one terminator;
no collected line is the terminator. -/
theorem readTillEndAux_split :
    ∀ {s cur : List Char} {ls : List (List Char)} {r : List Char},
      readTillEndAux cur s = .ok (ls, r) →
      cur ++ s = ls.flatten ++ endBytes ++ r ∧ ∀ l ∈ ls, l ≠ endBytes := by
  intro s
  induction s with
  | nil => intro cur ls r h; simp [readTillEndAux] at h
  | cons c rest ih =>
    intro cur ls r h
    simp only [readTillEndAux] at h
    by_cases hc : c = delim
    · rw [if_pos hc] at h
      by_cases hend : cur ++ [c] = endBytes
      · rw [if_pos hend] at h
        cases h
        constructor
        · simp [← hend]
        · simp
      · rw [if_neg hend] at h
        cases hrec : readTillEndAux [] rest with
        | error e => rw [hrec] at h; cases h
        | ok p =>
          cases p with
          | mk ls2 r2 =>
            rw [hrec] at h
            cases h
            obtain ⟨hs, hne⟩ := ih hrec
            simp only [List.nil_append] at hs
            constructor
            · simp [List.flatten_cons, hs]
            · intro l hl
              rcases List.mem_cons.mp hl with h1 | h2
              · rw [h1]; exact hend
              · exact hne l h2
    · rw [if_neg hc] at h
      obtain ⟨hs, hne⟩ := ih h
      refine ⟨?_, hne⟩
      rw [← hs]
      simp

/-- `readTillEnd` decomposition. -/
theorem readTillEnd_split {s : List Char} {ls : List (List Char)}
    {r : List Char} (h : readTillEnd s = .ok (ls, r)) :
    s = ls.flatten ++ endBytes ++ r ∧ ∀ l ∈ ls, l ≠ endBytes := by
  have := @readTillEndAux_split s [] ls r h
  simpa using this

/-- A successful `ReadFull` consumed exactly its result. -/
theorem readFullInt_split {n : Int} {s a b : List Char}
    (h : readFullInt n s = .ok (a, b)) : s = a ++ b := by
  unfold readFullInt at h
  by_cases h0 : n < 0
  · rw [if_pos h0] at h; cases h
  · rw [if_neg h0] at h
    by_cases h1 : n.toNat ≤ s.length
    · rw [if_pos h1] at h
      cases h
      exact (List.take_append_drop _ s).symm
    · rw [if_neg h1] at h; cases h

/-- A successful `finishValueReply`: the reply is first line ++ body ++
extra lines ++ a fresh terminator, and it equals exactly the bytes
consumed from the stream after the first line. -/
theorem finishValueReply_split {bs s1 fld r rest : List Char}
    (h : finishValueReply bs s1 fld = .ok (r, rest)) :
    ∃ (bs2 : List Char) (extras : List (List Char)),
      r = bs ++ bs2 ++ extras.flatten ++ endBytes ∧
      s1 = bs2 ++ extras.flatten ++ endBytes ++ rest ∧
      ∀ l ∈ extras, l ≠ endBytes := by
  unfold finishValueReply at h
  split at h
  next => cases h
  next len hb =>
    split at h
    next e hf => cases h
    next bs2 s2 hf =>
      split at h
      next e ht => cases h
      next extras s3 ht =>
        cases h
        obtain ⟨hs2, hne⟩ := readTillEnd_split ht
        refine ⟨bs2, extras, rfl, ?_, hne⟩
        rw [readFullInt_split hf, hs2]
        simp

/-- Every success of `parseValueReply` goes through
`finishValueReply`. -/
theorem parseValueReply_ok {bs s1 r rest : List Char}
    (h : parseValueReply bs s1 = .ok (r, rest)) :
    ∃ fld, finishValueReply bs s1 fld = .ok (r, rest) := by
  simp only [parseValueReply] at h
  split at h
  next => cases h
  next =>
    split at h
    next => cases h
    next f3 h3 =>
      split at h
      next =>
        split at h
        next => cases h
        next => exact ⟨f3.take (f3.length - 2), h⟩
      next => exact ⟨f3, h⟩

/-- Master case split for a successful retrieval reply: either the
first line is the terminator (a miss, attached as-is) or it is not
(a hit; the attached bytes are the VALUE block(s) plus one appended
terminator, equal to the bytes consumed from the wire). -/
theorem readReply_retrieval_cases {t : RequestType} {s : List Char}
    {st : List StatEvent} {r rest : List Char}
    (ht : isRetrieval t = true)
    (h : readReply t s = (st, .ok (r, rest))) :
    (st = [StatEvent.miss] ∧ r = endBytes ∧ s = endBytes ++ rest) ∨
    (st = [StatEvent.hit] ∧
      ∃ (pre bs2 : List Char) (extras : List (List Char)),
        delim ∉ pre ∧ pre ++ [delim] ≠ endBytes ∧
        (∀ l ∈ extras, l ≠ endBytes) ∧
        r = (pre ++ [delim]) ++ bs2 ++ extras.flatten ++ endBytes ∧
        s = r ++ rest) := by
  unfold readReply at h
  cases hnl : readBytesNL s with
  | error e =>
    rw [hnl] at h
    simp at h
  | ok p =>
    cases p with
    | mk bs s1 =>
      rw [hnl] at h
      simp only [ht, if_true] at h
      by_cases hend : bs = endBytes
      · rw [if_pos hend] at h
        rw [Prod.mk.injEq] at h
        obtain ⟨hst, hok⟩ := h
        obtain ⟨hr, hrest⟩ : bs = r ∧ s1 = rest := by
          cases hok; exact ⟨rfl, rfl⟩
        obtain ⟨hs, _⟩ := readBytesNL_split hnl
        refine Or.inl ⟨hst.symm, hr ▸ hend, ?_⟩
        rw [hs, hend, hrest]
      · rw [if_neg hend] at h
        rw [Prod.mk.injEq] at h
        obtain ⟨hst, hpv⟩ := h
        obtain ⟨fld, hfin⟩ := parseValueReply_ok hpv
        obtain ⟨bs2, extras, hr, hs1, hne⟩ := finishValueReply_split hfin
        obtain ⟨hs, pre, hpre, hnin⟩ := readBytesNL_split hnl
        refine Or.inr ⟨hst.symm, pre, bs2, extras, hnin, ?_, hne, ?_, ?_⟩
        · rw [← hpre]; exact hend
        · rw [hr, hpre]
        · rw [hs, hs1, hr]
          simp

theorem miss_ne_hit :
    ([StatEvent.miss] : List StatEvent) ≠ [StatEvent.hit] := by decide

/-- A reply starting with a full line other than the terminator does
not have the terminator as a prefix. -/
theorem end_not_prefixed {pre tail : List Char} (hnin : delim ∉ pre)
    (hne : pre ++ [delim] ≠ endBytes) :
    ¬ endBytes <+: (pre ++ [delim]) ++ tail := by
  intro hpref
  obtain ⟨t2, ht2⟩ := hpref
  have hsplit : endBytes = "END\x0d".toList ++ [delim] := by decide
  have hninEnd : delim ∉ "END\x0d".toList := by decide
  have h1 : endBytes ++ t2 = pre ++ delim :: tail := by
    rw [ht2]; simp
  rw [hsplit] at h1
  have h2 : "END\x0d".toList ++ delim :: t2 = pre ++ delim :: tail := by
    simpa [List.append_assoc] using h1
  have h3 := line_unique _ hninEnd hnin h2
  exact hne (by rw [← h3, ← hsplit])

/-- Counterexample to C4 as stated: the reply attached for this
single-VALUE retrieval is exactly the consumed wire bytes, which end
with — hence include — the literal terminator line `END\r\n`. -/
theorem mc_reply_includes_end :
    readReply RequestType.get ("VALUE a 0 3\r\nabc\r\nEND\r\n".toList)
      = ([StatEvent.hit],
         Except.ok ("VALUE a 0 3\r\nabc\r\nEND\r\n".toList, [])) ∧
    endBytes <:+ ("VALUE a 0 3\r\nabc\r\nEND\r\n".toList) := by
  exact ⟨by decide, by decide⟩

/-- C4 (amended): a retrieval hit's reply consists of the VALUE
block's first line, the body, and the extra lines (none of which is
the terminator), followed by exactly one `END\r\n` appended by the
handler — the attached bytes do not exclude the terminator: they equal
exactly the bytes consumed from the wire, terminator line included. -/
theorem mc_retrieval_reply_blocks {t : RequestType} {s : List Char}
    {st : List StatEvent} {r rest : List Char}
    (ht : isRetrieval t = true)
    (h : readReply t s = (st, Except.ok (r, rest)))
    (hhit : st = [StatEvent.hit]) :
    ∃ (line bs2 : List Char) (extras : List (List Char)),
      line ≠ endBytes ∧ (∀ l ∈ extras, l ≠ endBytes) ∧
      r = line ++ bs2 ++ extras.flatten ++ endBytes ∧
      s = r ++ rest := by
  rcases readReply_retrieval_cases ht h with
    ⟨hm, _, _⟩ | ⟨_, pre, bs2, extras, _, hne', hnee, hr, hs⟩
  · exact absurd (hm.symm.trans hhit) miss_ne_hit
  · exact ⟨pre ++ [delim], bs2, extras, hne', hnee, hr, hs⟩

/-- Witness for C4's amended theorem on a gets-style reply. -/
theorem mc_retrieval_reply_blocks_witness :
    isRetrieval RequestType.gets = true ∧
    readReply RequestType.gets ("VALUE k 0 2 9\r\nhi\r\nEND\r\n".toList)
      = ([StatEvent.hit],
         Except.ok ("VALUE k 0 2 9\r\nhi\r\nEND\r\n".toList, [])) ∧
    (∃ (line bs2 : List Char) (extras : List (List Char)),
      line ≠ endBytes ∧ (∀ l ∈ extras, l ≠ endBytes) ∧
      "VALUE k 0 2 9\r\nhi\r\nEND\r\n".toList
        = line ++ bs2 ++ extras.flatten ++ endBytes ∧
      "VALUE k 0 2 9\r\nhi\r\nEND\r\n".toList
        = "VALUE k 0 2 9\r\nhi\r\nEND\r\n".toList ++ []) :=
  ⟨by decide, by decide,
   @mc_retrieval_reply_blocks RequestType.gets
     ("VALUE k 0 2 9\r\nhi\r\nEND\r\n".toList) [StatEvent.hit]
     ("VALUE k 0 2 9\r\nhi\r\nEND\r\n".toList) []
     (by decide) (by decide) rfl⟩

/-- Counterexample to C5 as stated: a retrieval whose backend bytes
begin with a non-`VALUE` line still counts a hit, so "hit exactly when
the reply begins with a VALUE line" fails. -/
theorem mc_hit_without_value_prefix :
    readReply RequestType.get ("NOTVALUE a 0 3\r\nabc\r\nEND\r\n".toList)
      = ([StatEvent.hit],
         Except.ok ("NOTVALUE a 0 3\r\nabc\r\nEND\r\n".toList, [])) ∧
    ¬ ("VALUE".toList <+: "NOTVALUE a 0 3\r\nabc\r\nEND\r\n".toList) := by
  exact ⟨by decide, by decide⟩

/-- C5 (amended): for every retrieval reply that `Handle` attaches,
the miss counter fires exactly when the reply begins with `END\r\n`,
the hit counter fires exactly when it does not (so any `VALUE`-prefixed
reply counts a hit), and exactly one of the two fires. -/
theorem mc_hit_miss_accounting {t : RequestType} {s : List Char}
    {st : List StatEvent} {r rest : List Char}
    (ht : isRetrieval t = true)
    (h : readReply t s = (st, Except.ok (r, rest))) :
    (st = [StatEvent.miss] ↔ endBytes <+: r) ∧
    (st = [StatEvent.hit] ↔ ¬ endBytes <+: r) ∧
    (st = [StatEvent.miss] ∨ st = [StatEvent.hit]) := by
  rcases readReply_retrieval_cases ht h with
    ⟨hm, hr, _⟩ | ⟨hh, pre, bs2, extras, hnin, hne', _, hr, _⟩
  · have hpref : endBytes <+: r := by
      rw [hr]
    refine ⟨⟨fun _ => hpref, fun _ => hm⟩, ⟨?_, ?_⟩, Or.inl hm⟩
    · intro hhit
      exact absurd (hm.symm.trans hhit) miss_ne_hit
    · intro hnp
      exact absurd hpref hnp
  · have hnp : ¬ endBytes <+: r := by
      rw [hr, List.append_assoc, List.append_assoc]
      have := @end_not_prefixed pre (bs2 ++ (extras.flatten ++ endBytes))
        hnin hne'
      simpa [List.append_assoc] using this
    refine ⟨⟨?_, fun hp => absurd hp hnp⟩, ⟨fun _ => hnp, fun _ => hh⟩,
      Or.inr hh⟩
    intro hmiss
    exact absurd (hmiss.symm.trans hh) miss_ne_hit

/-- Witness for C5's amended theorem on a miss. -/
theorem mc_hit_miss_accounting_witness :
    isRetrieval RequestType.get = true ∧
    readReply RequestType.get ("END\r\nrest".toList)
      = ([StatEvent.miss], Except.ok ("END\r\n".toList, "rest".toList)) ∧
    ((([StatEvent.miss] : List StatEvent) = [StatEvent.miss] ↔
        endBytes <+: "END\r\n".toList) ∧
     (([StatEvent.miss] : List StatEvent) = [StatEvent.hit] ↔
        ¬ endBytes <+: "END\r\n".toList) ∧
     (([StatEvent.miss] : List StatEvent) = [StatEvent.miss] ∨
      ([StatEvent.miss] : List StatEvent) = [StatEvent.hit])) :=
  ⟨by decide, by decide,
   @mc_hit_miss_accounting RequestType.get ("END\r\nrest".toList)
     [StatEvent.miss] ("END\r\n".toList) ("rest".toList)
     (by decide) (by decide)⟩

/-- The flushed bytes are the requests' encodings, contiguous and in
order. -/
theorem writeReqs_eq (mcrs : List MCRequest) :
    writeReqs mcrs = (mcrs.map encodeReq).flatten := by
  have gen : ∀ (l : List MCRequest) (a : List Char),
      l.foldl (fun acc r => acc ++ encodeReq r) a
        = a ++ (l.map encodeReq).flatten := by
    intro l
    induction l with
    | nil => intro a; simp
    | cons x xs ih => intro a; simp [ih, List.append_assoc]
  simpa using gen mcrs []

/-- An error-free reply loop reads one reply per request, in order. -/
theorem handleLoop_ok_spec :
    ∀ (mcrs : List MCRequest) (s : List Char),
      (handleLoop mcrs s).err = none →
      (handleLoop mcrs s).resps.length = mcrs.length ∧
      RepliesInOrder mcrs s (handleLoop mcrs s).resps
        (handleLoop mcrs s).rest := by
  intro mcrs
  induction mcrs with
  | nil => intro s _; exact ⟨rfl, RepliesInOrder.nil s⟩
  | cons r rs ih =>
    intro s hok
    cases hr : readReply r.rTp s with
    | mk st x =>
      cases x with
      | error e => simp [handleLoop, hr] at hok
      | ok p =>
        cases p with
        | mk bs s1 =>
          have hloop : handleLoop (r :: rs) s
              = ⟨bs :: (handleLoop rs s1).resps,
                 st ++ (handleLoop rs s1).stats,
                 (handleLoop rs s1).err, (handleLoop rs s1).rest⟩ := by
            simp [handleLoop, hr]
          have hok' : (handleLoop rs s1).err = none := by
            rw [hloop] at hok
            exact hok
          obtain ⟨hlen, hchain⟩ := ih s1 hok'
          rw [hloop]
          exact ⟨by simp [hlen], RepliesInOrder.cons hr hchain⟩

/-- A failed reply loop stops at the first failing reply: the replies
before it are read in order, the failing request is the next one, and
the stream is not advanced past it. -/
theorem handleLoop_err_spec :
    ∀ (mcrs : List MCRequest) (s : List Char) {e : HandleErr},
      (handleLoop mcrs s).err = some e →
      (handleLoop mcrs s).resps.length < mcrs.length ∧
      RepliesInOrder (mcrs.take (handleLoop mcrs s).resps.length) s
        (handleLoop mcrs s).resps (handleLoop mcrs s).rest ∧
      ∃ req st, mcrs[(handleLoop mcrs s).resps.length]? = some req ∧
        readReply req.rTp (handleLoop mcrs s).rest = (st, .error e) := by
  intro mcrs
  induction mcrs with
  | nil => intro s e h; simp [handleLoop] at h
  | cons r rs ih =>
    intro s e herr
    cases hr : readReply r.rTp s with
    | mk st x =>
      cases x with
      | error e2 =>
        have hloop : handleLoop (r :: rs) s = ⟨[], st, some e2, s⟩ := by
          simp [handleLoop, hr]
        have he2 : e2 = e := by
          rw [hloop] at herr
          exact Option.some.inj herr
        rw [hloop]
        refine ⟨by simp, RepliesInOrder.nil s, r, st, by simp, ?_⟩
        rw [← he2]
        exact hr
      | ok p =>
        cases p with
        | mk bs s1 =>
          have hloop : handleLoop (r :: rs) s
              = ⟨bs :: (handleLoop rs s1).resps,
                 st ++ (handleLoop rs s1).stats,
                 (handleLoop rs s1).err, (handleLoop rs s1).rest⟩ := by
            simp [handleLoop, hr]
          have herr' : (handleLoop rs s1).err = some e := by
            rw [hloop] at herr
            exact herr
          obtain ⟨hlen, hchain, req, st2, hreq, hfail⟩ := ih s1 herr'
          rw [hloop]
          refine ⟨by simpa using Nat.succ_lt_succ hlen, ?_, req, st2, ?_, hfail⟩
          · simpa using RepliesInOrder.cons hr hchain
          · simpa using hreq

/-- C1: a successful `Handle` first flushes every request's encoding
contiguously in batch order, then reads exactly one reply per request
from the connection, in order, attaching the `i`-th reply read to the
`i`-th request of the batch (so none to any request outside it). -/
theorem handle_fifo (h : MCHandler) (mcrs : List MCRequest)
    (s : List Char) (hc : h.Closed = false)
    (hok : (handleLoop mcrs s).err = none) :
    (Handle h mcrs s).1 = (mcrs.map encodeReq).flatten ∧
    (Handle h mcrs s).2.resps.length = mcrs.length ∧
    RepliesInOrder mcrs s (Handle h mcrs s).2.resps
      (Handle h mcrs s).2.rest := by
  have hH : Handle h mcrs s = (writeReqs mcrs, handleLoop mcrs s) := by
    simp [Handle, hc]
  obtain ⟨hlen, hchain⟩ := handleLoop_ok_spec mcrs s hok
  rw [hH]
  exact ⟨writeReqs_eq mcrs, hlen, hchain⟩

/-- Witness for C1: a miss then a stored reply, two requests. -/
theorem handle_fifo_witness :
    (MCHandler.mk [] [] false).Closed = false ∧
    (handleLoop
      [MCRequest.mk RequestType.get ("a".toList) ("\r\n".toList),
       MCRequest.mk RequestType.set ("b".toList) (" 0 0 2\r\nhi\r\n".toList)]
      ("END\r\nSTORED\r\n".toList)).err = none ∧
    ((Handle (MCHandler.mk [] [] false)
        [MCRequest.mk RequestType.get ("a".toList) ("\r\n".toList),
         MCRequest.mk RequestType.set ("b".toList) (" 0 0 2\r\nhi\r\n".toList)]
        ("END\r\nSTORED\r\n".toList)).1
      = (([MCRequest.mk RequestType.get ("a".toList) ("\r\n".toList),
           MCRequest.mk RequestType.set ("b".toList)
             (" 0 0 2\r\nhi\r\n".toList)]).map encodeReq).flatten ∧
     (Handle (MCHandler.mk [] [] false)
        [MCRequest.mk RequestType.get ("a".toList) ("\r\n".toList),
         MCRequest.mk RequestType.set ("b".toList) (" 0 0 2\r\nhi\r\n".toList)]
        ("END\r\nSTORED\r\n".toList)).2.resps.length
      = ([MCRequest.mk RequestType.get ("a".toList) ("\r\n".toList),
          MCRequest.mk RequestType.set ("b".toList)
            (" 0 0 2\r\nhi\r\n".toList)]).length ∧
     RepliesInOrder
       [MCRequest.mk RequestType.get ("a".toList) ("\r\n".toList),
        MCRequest.mk RequestType.set ("b".toList) (" 0 0 2\r\nhi\r\n".toList)]
       ("END\r\nSTORED\r\n".toList)
       (Handle (MCHandler.mk [] [] false)
         [MCRequest.mk RequestType.get ("a".toList) ("\r\n".toList),
          MCRequest.mk RequestType.set ("b".toList) (" 0 0 2\r\nhi\r\n".toList)]
         ("END\r\nSTORED\r\n".toList)).2.resps
       (Handle (MCHandler.mk [] [] false)
         [MCRequest.mk RequestType.get ("a".toList) ("\r\n".toList),
          MCRequest.mk RequestType.set ("b".toList) (" 0 0 2\r\nhi\r\n".toList)]
         ("END\r\nSTORED\r\n".toList)).2.rest) :=
  ⟨by decide, by decide,
   handle_fifo (MCHandler.mk [] [] false)
     [MCRequest.mk RequestType.get ("a".toList) ("\r\n".toList),
      MCRequest.mk RequestType.set ("b".toList) (" 0 0 2\r\nhi\r\n".toList)]
     ("END\r\nSTORED\r\n".toList) (by decide) (by decide)⟩

/-- C6: when reading or parsing the reply at position `i` fails, the
handler is closed (a later `Handle` is rejected without touching the
stream), messages `i..n-1` are errored with an IOError-class error,
the `i` replies already read are in order, and no reply beyond the
failure is consumed. -/
theorem handle_error_closes (h : MCHandler) (mcrs : List MCRequest)
    (s : List Char) (e : HandleErr) (hc : h.Closed = false)
    (herr : (handleLoop mcrs s).err = some e) :
    (dispatchToNode h mcrs s).handler.Closed = true ∧
    (∀ (mcrs' : List MCRequest) (s' : List Char),
      (Handle (dispatchToNode h mcrs s).handler mcrs' s').2.err
          = some HandleErr.closed ∧
      (Handle (dispatchToNode h mcrs s).handler mcrs' s').2.resps = [] ∧
      (Handle (dispatchToNode h mcrs s).handler mcrs' s').2.rest = s') ∧
    (handleLoop mcrs s).resps.length < mcrs.length ∧
    (∀ j : Nat, j < mcrs.length →
      ((dispatchToNode h mcrs s).msgErrs[j]? = some true ↔
        (handleLoop mcrs s).resps.length ≤ j)) ∧
    RepliesInOrder (mcrs.take (handleLoop mcrs s).resps.length) s
      (handleLoop mcrs s).resps (dispatchToNode h mcrs s).rest ∧
    (∃ req st, mcrs[(handleLoop mcrs s).resps.length]? = some req ∧
      readReply req.rTp (dispatchToNode h mcrs s).rest
        = (st, .error e)) := by
  have hH : (Handle h mcrs s).2 = handleLoop mcrs s := by
    simp [Handle, hc]
  obtain ⟨hlen, hchain, req, st2, hreq, hfail⟩ :=
    handleLoop_err_spec mcrs s herr
  have hD : dispatchToNode h mcrs s
      = ⟨h.Close,
         (handleLoop mcrs s).resps.map some ++
           List.replicate (mcrs.length - (handleLoop mcrs s).resps.length)
             none,
         List.replicate (handleLoop mcrs s).resps.length false ++
           List.replicate (mcrs.length - (handleLoop mcrs s).resps.length)
             true,
         (handleLoop mcrs s).rest⟩ := by
    unfold dispatchToNode
    rw [hH]
    rw [herr]
  refine ⟨by rw [hD]; rfl, ?_, hlen, ?_, ?_, req, st2, hreq, ?_⟩
  · intro mcrs' s'
    have hclosed : (dispatchToNode h mcrs s).handler.Closed = true := by
      rw [hD]; rfl
    refine ⟨?_, ?_, ?_⟩ <;> simp [Handle, hclosed]
  · intro j hj
    rw [hD]
    by_cases hji : j < (handleLoop mcrs s).resps.length
    · rw [List.getElem?_append_left (by simpa using hji)]
      rw [List.getElem?_replicate]
      simp only [if_pos hji]
      constructor
      · intro hfalse
        cases hfalse
      · intro hle
        omega
    · have hge : (handleLoop mcrs s).resps.length ≤ j := Nat.le_of_not_lt hji
      rw [List.getElem?_append_right
        (by simpa using hge)]
      rw [List.length_replicate, List.getElem?_replicate]
      have hlt2 : j - (handleLoop mcrs s).resps.length
          < mcrs.length - (handleLoop mcrs s).resps.length := by omega
      simp only [if_pos hlt2]
      exact ⟨fun _ => hge, fun _ => trivial⟩
  · rw [hD]
    exact hchain
  · rw [hD]
    exact hfail

/-- Witness for C6: the second reply is missing from the stream, so
`Handle` fails at position 1. -/
theorem handle_error_closes_witness :
    (MCHandler.mk [] [] false).Closed = false ∧
    (handleLoop
      [MCRequest.mk RequestType.get ("a".toList) ("\r\n".toList),
       MCRequest.mk RequestType.get ("b".toList) ("\r\n".toList)]
      ("END\r\n".toList)).err = some HandleErr.ioErr ∧
    (dispatchToNode (MCHandler.mk [] [] false)
      [MCRequest.mk RequestType.get ("a".toList) ("\r\n".toList),
       MCRequest.mk RequestType.get ("b".toList) ("\r\n".toList)]
      ("END\r\n".toList)).handler.Closed = true ∧
    (dispatchToNode (MCHandler.mk [] [] false)
      [MCRequest.mk RequestType.get ("a".toList) ("\r\n".toList),
       MCRequest.mk RequestType.get ("b".toList) ("\r\n".toList)]
      ("END\r\n".toList)).msgErrs = [false, true] :=
  ⟨by decide, by decide,
   (handle_error_closes (MCHandler.mk [] [] false)
     [MCRequest.mk RequestType.get ("a".toList) ("\r\n".toList),
      MCRequest.mk RequestType.get ("b".toList) ("\r\n".toList)]
     ("END\r\n".toList) HandleErr.ioErr (by decide) (by decide)).1,
   by decide⟩

set_option maxRecDepth 100000 in
/-- C7: `IsSupport` is `false` for every command of the blacklist blob
(`KEYS`, `SCAN`, `EVAL`, `MIGRATE`, `RENAME`, `BLPOP`, `AUTH`, `INFO`,
`SELECT`, `MSETNX`, the STORE variants of the blob, and the rest) and
`true` for the read/write/control commands the claim names. -/
theorem isSupport_blacklist_whitelist :
    (notSupportNames.all fun name => !(IsSupport (mkCmdReq name))) = true ∧
    (claimSupportedNames.all fun name => IsSupport (mkCmdReq name)) = true := by
  exact ⟨by decide, by decide⟩

end Overlord
